import Mathlib

/-!
Verification of the bounded-sum component allocator and composition solvers
of the COA generator (`src/app.py`).

The Python floats are modelled as exact rationals (`ℚ`); Python's `round(x, d)`
is modelled as round-to-nearest with ties away from minus infinity
(`roundQ`).  Python dicts are modelled as association lists with Python's
insert-or-update assignment semantics (`updateD`), so that key-set facts are
faithful.  The randomized solver's calls to `random.random()` /
`random.uniform(a,b)` are modelled by an oracle stream `u : ℕ → ℚ` of unit
samples, attempt `k` consuming indices `9*k .. 9*k+8` in program order.
All loops of the source are bounded (`for _ in range(100)`,
`range(max_attempts)`); they are embedded as structurally recursive
functions on that fuel, additionally reporting the number of executed
passes/attempts.
-/

set_option maxHeartbeats 2000000
set_option maxRecDepth 4000

namespace COA

/-- Model of Python's `round(x, d)`: round to `d` decimal places. -/
def roundQ (d : ℕ) (x : ℚ) : ℚ := ((⌊x * 10 ^ d + 1/2⌋ : ℤ) : ℚ) / 10 ^ d

/-- `v` is representable with `d` decimal places. -/
def isPrec (d : ℕ) (v : ℚ) : Prop := ∃ k : ℤ, v = (k : ℚ) / 10 ^ d

/-- Python dict with string keys and float values, as an association list. -/
abbrev Dict := List (String × ℚ)

/-- Dict lookup (all lookups performed by the program hit existing keys). -/
def lookupD (l : Dict) (k : String) : ℚ :=
  match l with
  | [] => 0
  | p :: rest => if p.1 = k then p.2 else lookupD rest k

/-- Python dict assignment `l[k] = v`: update the existing entry, else append. -/
def updateD (l : Dict) (k : String) (v : ℚ) : Dict :=
  match l with
  | [] => [(k, v)]
  | p :: rest => if p.1 = k then (k, v) :: rest else p :: updateD rest k v

/-- Python dict comprehension `{n : f n for n in names}`. -/
def dictComp (names : List String) (f : String → ℚ) : Dict :=
  List.foldl (fun d n => updateD d n (f n)) [] names

def keysOf (l : Dict) : List String := l.map Prod.fst

/-- `sum(l.values())`. -/
def sndSum (l : Dict) : ℚ := (l.map Prod.snd).sum

/-- `sum(l[n] for n in names)`. -/
def namesSum (names : List String) (l : Dict) : ℚ := (names.map (lookupD l)).sum

/-- The two failure modes of `distribute_within_bounds` (both `ValueError`s
in the source): the feasibility gate and the final-sum check. -/
inductive AllocErr
  | infeasibleTarget
  | allocationUnreachable
deriving DecidableEq, Repr

/-- `eps = 1e-9` of `distribute_within_bounds`. -/
def eps9 : ℚ := 1 / 1000000000

/-- The `1e-8` convergence threshold of the redistribution loop. -/
def epsConv : ℚ := 1 / 100000000

def minSum (names : List String) (mins : String → ℚ) : ℚ := (names.map mins).sum

def maxSum (names : List String) (maxs : String → ℚ) : ℚ := (names.map maxs).sum

/-- One clamping sweep `for n in names: ...` of the water-filling loop:
clamp every not-yet-locked value to its violated bound and lock it. -/
def clampPass (mins maxs : String → ℚ) :
    List String → Dict → (String → Bool) → Bool → Dict × (String → Bool) × Bool
  | [], vals, locked, changed => (vals, locked, changed)
  | n :: rest, vals, locked, changed =>
    if locked n then clampPass mins maxs rest vals locked changed
    else if lookupD vals n < mins n then
      clampPass mins maxs rest (updateD vals n (mins n))
        (fun m => if m = n then true else locked m) true
    else if maxs n < lookupD vals n then
      clampPass mins maxs rest (updateD vals n (maxs n))
        (fun m => if m = n then true else locked m) true
    else clampPass mins maxs rest vals locked changed

/-- The `for _ in range(100)` clamp-and-redistribute loop.  Returns the final
values together with the number of iterations that were executed. -/
def waterLoop (target : ℚ) (names : List String) (mins maxs weights : String → ℚ) :
    ℕ → Dict → (String → Bool) → Dict × ℕ
  | 0, vals, _ => (vals, 0)
  | fuel + 1, vals, locked =>
    let c := clampPass mins maxs names vals locked false
    if c.2.2 then
      let r := waterLoop target names mins maxs weights fuel c.1 c.2.1
      (r.1, r.2 + 1)
    else
      let unlocked := names.filter (fun n => !(c.2.1 n))
      if unlocked.isEmpty then (c.1, 1)
      else
        let rem := target - sndSum c.1
        if |rem| < epsConv then (c.1, 1)
        else
          let wUnSum := (unlocked.map weights).sum
          let vals2 :=
            if wUnSum ≤ 0 then
              List.foldl (fun d n => updateD d n (lookupD d n + rem / unlocked.length)) c.1 unlocked
            else
              List.foldl (fun d n => updateD d n (lookupD d n + rem * (weights n / wUnSum))) c.1 unlocked
          let r := waterLoop target names mins maxs weights fuel vals2 c.2.1
          (r.1, r.2 + 1)

/-- `for n in names: vals[n] = max(min(vals[n], maxs[n]), mins[n]); vals[n] = round(vals[n], 2)`. -/
def clampRound (mins maxs : String → ℚ) (names : List String) (vals : Dict) : Dict :=
  List.foldl (fun d n => updateD d n (roundQ 2 (max (min (lookupD d n) (maxs n)) (mins n)))) vals names

/-- The final nudge loop over the `adjustable` components. -/
def nudgeLoop (target : ℚ) (mins maxs : String → ℚ) :
    List String → Dict → ℚ → Dict
  | [], vals, _ => vals
  | n :: rest, vals, diff =>
    let v := lookupD vals n
    let allowLow := roundQ 2 (v - mins n)
    let allowHigh := roundQ 2 (maxs n - v)
    let move := max (-allowLow) (min allowHigh diff)
    if 1/100 ≤ |move| then
      let vals1 := updateD vals n (roundQ 2 (v + move))
      let diff1 := roundQ 2 (target - sndSum vals1)
      if |diff1| < 1/100 then vals1
      else nudgeLoop target mins maxs rest vals1 diff1
    else nudgeLoop target mins maxs rest vals diff

/-- Iteration bound of the water-filling loop (`for _ in range(100)`). -/
def allocatorMaxPasses : ℕ := 100

/-- Initial proportional assignment (equal split when the weights sum to ≤ 0). -/
def initVals (target : ℚ) (names : List String) (weights : String → ℚ) : Dict :=
  if (names.map weights).sum ≤ 0 then dictComp names (fun _ => target / names.length)
  else dictComp names (fun n => target * (weights n / (names.map weights).sum))

/-- Values after the water-filling loop followed by the defensive clamp-and-round. -/
def afterClamp (target : ℚ) (names : List String) (mins maxs weights : String → ℚ) : Dict :=
  clampRound mins maxs names
    (waterLoop target names mins maxs weights allocatorMaxPasses
      (initVals target names weights) (fun _ => false)).1

/-- `diff = round(target - round(sum(vals[n] for n in names), 2), 2)`. -/
def allocDiff (target : ℚ) (names : List String) (mins maxs weights : String → ℚ) : ℚ :=
  roundQ 2 (target - roundQ 2 (namesSum names (afterClamp target names mins maxs weights)))

/-- `adjustable = [n for n in names if mins[n] + 1e-9 < vals[n] < maxs[n] - 1e-9]`. -/
def adjustableList (names : List String) (mins maxs : String → ℚ) (vals : Dict) : List String :=
  names.filter (fun n => decide (mins n + eps9 < lookupD vals n) && decide (lookupD vals n < maxs n - eps9))

/-- The assignment produced by `distribute_within_bounds` before its final check. -/
def allocCore (target : ℚ) (names : List String) (mins maxs weights : String → ℚ) : Dict :=
  if 1/100 ≤ |allocDiff target names mins maxs weights| then
    nudgeLoop target mins maxs
      (adjustableList names mins maxs (afterClamp target names mins maxs weights))
      (afterClamp target names mins maxs weights)
      (allocDiff target names mins maxs weights)
  else afterClamp target names mins maxs weights

/-- `distribute_within_bounds(target, names, mins, maxs, weights)` (src/app.py:87-149). -/
def distribute_within_bounds (target : ℚ) (names : List String)
    (mins maxs weights : String → ℚ) : Except AllocErr Dict :=
  if target + eps9 < minSum names mins ∨ maxSum names maxs < target - eps9 then
    .error .infeasibleTarget
  else if 1/100 < |roundQ 2 (namesSum names (allocCore target names mins maxs weights)) - target| then
    .error .allocationUnreachable
  else .ok (allocCore target names mins maxs weights)

/-- The fixed bounds table `RANGES` (src/app.py:154-160). -/
def RANGES : String → ℚ × ℚ := fun n =>
  if n = "fat" then (0.45, 0.55)
  else if n = "air" then (2.90, 3.10)
  else if n = "ash" then (0.45, 0.55)
  else if n = "protein" then (2.45, 2.55)
  else if n = "gum" then (80.10, 89.95)
  else (0, 0)

/-- `MIDS = {k: round((lo + hi) / 2.0, 4) ...}` (src/app.py:161). -/
def MIDS (n : String) : ℚ := roundQ 4 (((RANGES n).1 + (RANGES n).2) / 2)

/-- The four non-gum components, in program order. -/
def others : List String := ["fat", "air", "ash", "protein"]

def oMins (n : String) : ℚ := (RANGES n).1

def oMaxs (n : String) : ℚ := (RANGES n).2

/-- Result quintuple `(gum, protein, ash, air, fat)` of the solvers. -/
abbrev Comp5 := ℚ × ℚ × ℚ × ℚ × ℚ

/-- Failure modes of the two composition solvers (`ValueError`s at
src/app.py:205 and src/app.py:248). -/
inductive SolverError
  | componentsUnreachable
  | randomFailed
deriving DecidableEq, Repr

def othersMidSum : ℚ := (others.map MIDS).sum

/-- `gum_needed = round(remaining - others_mid_sum, 4)` with
`remaining = round(100.0 - moisture, 4)` (src/app.py:167-170). -/
def gumNeeded (m : ℚ) : ℚ := roundQ 4 (roundQ 4 (100 - m) - othersMidSum)

/-- The midpoint branch of `calculate_components_deterministic`
(src/app.py:172-181): all four others at their midpoints, gum at
`gum_needed`, with the unconditional residual push into gum. -/
def detMidResult (m : ℚ) : Except SolverError Comp5 :=
  let fat := roundQ 2 (MIDS "fat")
  let air := roundQ 2 (MIDS "air")
  let ash := roundQ 2 (MIDS "ash")
  let protein := roundQ 2 (MIDS "protein")
  let gum := roundQ 2 (gumNeeded m)
  let total := roundQ 2 (m + fat + air + ash + protein + gum)
  if 1/100 < |total - 100| then
    .ok (roundQ 2 (gum + (100 - total)), protein, ash, air, fat)
  else
    .ok (gum, protein, ash, air, fat)

/-- One endpoint trial of the deterministic solver (src/app.py:184-204):
allocate the four others against `round(remaining - gum_try, 4)` and, when
the 6-way total misses 100 by more than 0.01, push the residual into gum
only if that stays within gum's bounds. -/
def detEndpointResult (m remaining gumTry : ℚ) : Except AllocErr Comp5 :=
  match distribute_within_bounds (roundQ 4 (remaining - gumTry)) others oMins oMaxs MIDS with
  | .error e => .error e
  | .ok allocated =>
    let fat := lookupD allocated "fat"
    let air := lookupD allocated "air"
    let ash := lookupD allocated "ash"
    let protein := lookupD allocated "protein"
    let gum := roundQ 2 gumTry
    let total := roundQ 2 (m + fat + air + ash + protein + gum)
    if 1/100 < |total - 100| then
      let newGum := roundQ 2 (gum + roundQ 2 (100 - total))
      if oMins "gum" ≤ newGum ∧ newGum ≤ oMaxs "gum" then
        .ok (newGum, protein, ash, air, fat)
      else
        .ok (gum, protein, ash, air, fat)
    else
      .ok (gum, protein, ash, air, fat)

/-- `gum_try_list = [RANGES["gum"][0], RANGES["gum"][1]]` (src/app.py:183). -/
def gumTryList : List ℚ := [oMins "gum", oMaxs "gum"]

/-- The `for gum_try in gum_try_list` loop (src/app.py:184-204): first
successful endpoint wins, a `ValueError` from the allocator moves on to the
next endpoint, exhaustion raises (src/app.py:205). -/
def tryEndpoints (m remaining : ℚ) : List ℚ → Except SolverError Comp5
  | [] => .error .componentsUnreachable
  | g :: rest =>
    match detEndpointResult m remaining g with
    | .ok r => .ok r
    | .error _ => tryEndpoints m remaining rest

/-- `calculate_components_deterministic(moisture)` (src/app.py:166-205). -/
def calculate_components_deterministic (m : ℚ) : Except SolverError Comp5 :=
  if oMins "gum" - eps9 ≤ gumNeeded m ∧ gumNeeded m ≤ oMaxs "gum" + eps9 then
    detMidResult m
  else
    tryEndpoints m (roundQ 4 (100 - m)) gumTryList

/-- `max_attempts = 2000` of `calculate_components_random` (src/app.py:207). -/
def randomMaxAttempts : ℕ := 2000

/-- `random.uniform(a, b) = a + (b - a) * random.random()`, with the unit
sample `t` supplied by the oracle stream. -/
def uniformQ (a b t : ℚ) : ℚ := a + (b - a) * t

/-- `round(random.uniform(RANGES[o][0], RANGES[o][1]), 4)` (src/app.py:213). -/
def randSample (o : String) (t : ℚ) : ℚ := roundQ 4 (uniformQ (RANGES o).1 (RANGES o).2 t)

/-- `rand_weights = {o: random.random() + MIDS[o] for o in others}`
(src/app.py:230), attempt `k` drawing its four unit samples at oracle
indices `9*k+5 .. 9*k+8`. -/
def randWeights (u : ℕ → ℚ) (k : ℕ) (o : String) : ℚ :=
  (if o = "fat" then u (9*k+5)
   else if o = "air" then u (9*k+6)
   else if o = "ash" then u (9*k+7)
   else u (9*k+8)) + MIDS o

/-- The `for attempt in range(max_attempts)` loop of
`calculate_components_random` (src/app.py:212-248), with the number of
executed attempts reported alongside the result.  Attempt `k` consumes
oracle indices `9*k .. 9*k+3` for the four component samples, `9*k+4` for
the gum sample and `9*k+5 .. 9*k+8` for the randomized weights, in program
order. -/
def randLoop (m remaining : ℚ) (u : ℕ → ℚ) : ℕ → ℕ → Except SolverError Comp5 × ℕ
  | _, 0 => (.error .randomFailed, 0)
  | k, fuel + 1 =>
    let sfat := randSample "fat" (u (9*k))
    let sair := randSample "air" (u (9*k+1))
    let sash := randSample "ash" (u (9*k+2))
    let sprotein := randSample "protein" (u (9*k+3))
    let gumNeeded1 := roundQ 4 (remaining - (sfat + sair + sash + sprotein))
    if oMins "gum" - eps9 ≤ gumNeeded1 ∧ gumNeeded1 ≤ oMaxs "gum" + eps9 then
      let fat := roundQ 2 sfat
      let air := roundQ 2 sair
      let ash := roundQ 2 sash
      let protein := roundQ 2 sprotein
      let gum := roundQ 2 gumNeeded1
      let total := roundQ 2 (m + fat + air + ash + protein + gum)
      if 1/100 < |total - 100| then
        (.ok (roundQ 2 (gum + (100 - total)), protein, ash, air, fat), 1)
      else
        (.ok (gum, protein, ash, air, fat), 1)
    else
      let gumTry := roundQ 4 (uniformQ (oMins "gum") (oMaxs "gum") (u (9*k+4)))
      match distribute_within_bounds (roundQ 4 (remaining - gumTry)) others oMins oMaxs (randWeights u k) with
      | .ok allocated =>
        let fat := lookupD allocated "fat"
        let air := lookupD allocated "air"
        let ash := lookupD allocated "ash"
        let protein := lookupD allocated "protein"
        let gum := roundQ 2 gumTry
        let total := roundQ 2 (m + fat + air + ash + protein + gum)
        if 1/100 < |total - 100| then
          let newGum := roundQ 2 (gum + roundQ 2 (100 - total))
          if oMins "gum" ≤ newGum ∧ newGum ≤ oMaxs "gum" then
            (.ok (newGum, protein, ash, air, fat), 1)
          else
            (.ok (gum, protein, ash, air, fat), 1)
        else
          (.ok (gum, protein, ash, air, fat), 1)
      | .error _ =>
        let r := randLoop m remaining u (k+1) fuel
        (r.1, r.2 + 1)

/-- `calculate_components_random(moisture)` (src/app.py:207-248), with the
randomness supplied by the oracle stream `u`. -/
def calculate_components_random (m : ℚ) (u : ℕ → ℚ) : Except SolverError Comp5 :=
  (randLoop m (roundQ 4 (100 - m)) u 0 randomMaxAttempts).1

/-- The key list of a dict together with the participating names determine a
well-formed allocator state: keys are distinct and are exactly the names. -/
def KeysGood (names : List String) (l : Dict) : Prop :=
  (keysOf l).Nodup ∧ ∀ k, k ∈ keysOf l ↔ k ∈ names

/-- Every value the allocator hands back is a 2-decimal quantity no further
than half a cent below its lower bound nor above its upper bound. -/
def PointOk (mins maxs : String → ℚ) (n : String) (v : ℚ) : Prop :=
  isPrec 2 v ∧ mins n - 1/200 ≤ v ∧ v ≤ maxs n + 1/200

/-! ### Rounding arithmetic -/

theorem roundQ_mono (d : ℕ) {x y : ℚ} (h : x ≤ y) : roundQ d x ≤ roundQ d y := by
  have hc : (0:ℚ) < 10 ^ d := by positivity
  have h2 : (⌊x * 10 ^ d + 1/2⌋ : ℤ) ≤ ⌊y * 10 ^ d + 1/2⌋ := by
    apply Int.floor_le_floor
    have := mul_le_mul_of_nonneg_right h (le_of_lt hc)
    linarith
  unfold roundQ
  gcongr

theorem roundQ_le (d : ℕ) (x : ℚ) : roundQ d x ≤ x + 1 / (2 * 10 ^ d) := by
  have hc : (0:ℚ) < 10 ^ d := by positivity
  have h1 : ((⌊x * 10 ^ d + 1/2⌋ : ℤ) : ℚ) ≤ x * 10 ^ d + 1/2 := Int.floor_le _
  unfold roundQ
  rw [div_le_iff hc]
  have : (x + 1 / (2 * 10 ^ d)) * 10 ^ d = x * 10 ^ d + 1/2 := by
    field_simp
    ring
  linarith [this]

theorem lt_roundQ (d : ℕ) (x : ℚ) : x - 1 / (2 * 10 ^ d) < roundQ d x := by
  have hc : (0:ℚ) < 10 ^ d := by positivity
  have h1 : x * 10 ^ d + 1/2 - 1 < ((⌊x * 10 ^ d + 1/2⌋ : ℤ) : ℚ) := Int.sub_one_lt_floor _
  unfold roundQ
  rw [lt_div_iff hc]
  have : (x - 1 / (2 * 10 ^ d)) * 10 ^ d = x * 10 ^ d - 1/2 := by
    field_simp
    ring
  linarith [this]

theorem abs_roundQ_sub_le (d : ℕ) (x : ℚ) : |roundQ d x - x| ≤ 1 / (2 * 10 ^ d) := by
  rw [abs_le]
  constructor
  · linarith [lt_roundQ d x]
  · linarith [roundQ_le d x]

theorem isPrec_roundQ (d : ℕ) (x : ℚ) : isPrec d (roundQ d x) :=
  ⟨⌊x * 10 ^ d + 1/2⌋, rfl⟩

theorem roundQ_eq_self {d : ℕ} {v : ℚ} (h : isPrec d v) : roundQ d v = v := by
  obtain ⟨k, rfl⟩ := h
  have hc : (0:ℚ) < 10 ^ d := by positivity
  unfold roundQ
  have h1 : (k : ℚ) / 10 ^ d * 10 ^ d = (k : ℚ) := by field_simp
  rw [h1]
  have h2 : (⌊(k : ℚ) + 1/2⌋ : ℤ) = k := by
    rw [Int.floor_int_add]
    norm_num
  rw [h2]

theorem isPrec.add {d : ℕ} {a b : ℚ} (ha : isPrec d a) (hb : isPrec d b) :
    isPrec d (a + b) := by
  obtain ⟨j, rfl⟩ := ha
  obtain ⟨k, rfl⟩ := hb
  exact ⟨j + k, by push_cast; rw [div_add_div_same]⟩

theorem isPrec.neg {d : ℕ} {a : ℚ} (ha : isPrec d a) : isPrec d (-a) := by
  obtain ⟨j, rfl⟩ := ha
  exact ⟨-j, by push_cast; rw [neg_div]⟩

theorem isPrec.sub {d : ℕ} {a b : ℚ} (ha : isPrec d a) (hb : isPrec d b) :
    isPrec d (a - b) := by
  rw [sub_eq_add_neg]
  exact ha.add hb.neg

theorem isPrec.min {d : ℕ} {a b : ℚ} (ha : isPrec d a) (hb : isPrec d b) :
    isPrec d (min a b) := by
  rcases min_choice a b with h | h <;> rw [h] <;> assumption

theorem isPrec.max {d : ℕ} {a b : ℚ} (ha : isPrec d a) (hb : isPrec d b) :
    isPrec d (max a b) := by
  rcases max_choice a b with h | h <;> rw [h] <;> assumption

theorem isPrec_sum {d : ℕ} {l : List ℚ} (h : ∀ x ∈ l, isPrec d x) :
    isPrec d l.sum := by
  induction l with
  | nil => exact ⟨0, by norm_num⟩
  | cons a t ih =>
    rw [List.sum_cons]
    exact (h a (List.mem_cons_self a t)).add (ih fun x hx => h x (List.mem_cons_of_mem a hx))

theorem isPrec_two_four {v : ℚ} (h : isPrec 2 v) : isPrec 4 v := by
  obtain ⟨k, rfl⟩ := h
  exact ⟨100 * k, by push_cast; ring⟩

theorem isPrec2_nonneg {s : ℚ} (h : isPrec 2 s) (hgt : -(1/100) < s) : 0 ≤ s := by
  obtain ⟨k, rfl⟩ := h
  norm_num at hgt ⊢
  have h1 : (-1 : ℚ) < (k : ℚ) := by linarith
  have h2 : (-1 : ℤ) < k := by exact_mod_cast h1
  have h3 : (0 : ℤ) ≤ k := by omega
  have h4 : (0 : ℚ) ≤ (k : ℚ) := by exact_mod_cast h3
  positivity

/-! ### Dict lemmas -/

theorem lookupD_updateD_self (l : Dict) (k : String) (v : ℚ) :
    lookupD (updateD l k v) k = v := by
  induction l with
  | nil => simp [updateD, lookupD]
  | cons p rest ih =>
    by_cases h : p.1 = k
    · simp [updateD, h, lookupD]
    · simp [updateD, h, lookupD, ih]

theorem lookupD_updateD_ne {k' k : String} (h : k' ≠ k) (l : Dict) (v : ℚ) :
    lookupD (updateD l k v) k' = lookupD l k' := by
  induction l with
  | nil =>
    simp only [updateD, lookupD]
    rw [if_neg (fun hc => h hc.symm)]
  | cons p rest ih =>
    by_cases hp : p.1 = k
    · have e : updateD (p :: rest) k v = (k, v) :: rest := by simp [updateD, hp]
      rw [e]
      simp only [lookupD]
      rw [if_neg (fun hc => h hc.symm), if_neg (fun hc : p.1 = k' => h (hc ▸ hp))]
    · have e : updateD (p :: rest) k v = p :: updateD rest k v := by simp [updateD, hp]
      rw [e]
      simp only [lookupD]
      by_cases hq : p.1 = k'
      · rw [if_pos hq, if_pos hq]
      · rw [if_neg hq, if_neg hq, ih]

theorem mem_keysOf_updateD {a k : String} (l : Dict) (v : ℚ) :
    a ∈ keysOf (updateD l k v) ↔ a ∈ keysOf l ∨ a = k := by
  induction l with
  | nil => simp [updateD, keysOf]
  | cons p rest ih =>
    by_cases hp : p.1 = k
    · have e : updateD (p :: rest) k v = (k, v) :: rest := by simp [updateD, hp]
      rw [e]
      simp only [keysOf, List.map_cons, List.mem_cons]
      rw [← hp]
      tauto
    · have e : updateD (p :: rest) k v = p :: updateD rest k v := by simp [updateD, hp]
      rw [e]
      simp only [keysOf, List.map_cons, List.mem_cons] at ih ⊢
      rw [ih]
      tauto

theorem keysOf_updateD_of_mem {k : String} {l : Dict} (h : k ∈ keysOf l) (v : ℚ) :
    keysOf (updateD l k v) = keysOf l := by
  induction l with
  | nil => simp [keysOf] at h
  | cons p rest ih =>
    simp only [keysOf, List.map_cons, List.mem_cons] at h
    by_cases hp : p.1 = k
    · have e : updateD (p :: rest) k v = (k, v) :: rest := by simp [updateD, hp]
      rw [e]
      simp [keysOf, hp]
    · have e : updateD (p :: rest) k v = p :: updateD rest k v := by simp [updateD, hp]
      rw [e]
      rcases h with h | h
      · exact absurd h.symm hp
      · simp only [keysOf, List.map_cons]
        rw [show List.map Prod.fst (updateD rest k v) = keysOf (updateD rest k v) from rfl,
          ih h]
        rfl

theorem keysOf_updateD_of_not_mem {k : String} {l : Dict} (h : k ∉ keysOf l) (v : ℚ) :
    keysOf (updateD l k v) = keysOf l ++ [k] := by
  induction l with
  | nil => simp [updateD, keysOf]
  | cons p rest ih =>
    simp only [keysOf, List.map_cons, List.mem_cons] at h
    push_neg at h
    have hp : p.1 ≠ k := fun hc => h.1 hc.symm
    have e : updateD (p :: rest) k v = p :: updateD rest k v := by simp [updateD, hp]
    rw [e]
    simp only [keysOf, List.map_cons, List.cons_append]
    rw [show List.map Prod.fst (updateD rest k v) = keysOf (updateD rest k v) from rfl,
      ih h.2]
    rfl

theorem nodup_keysOf_updateD {l : Dict} (h : (keysOf l).Nodup) (k : String) (v : ℚ) :
    (keysOf (updateD l k v)).Nodup := by
  by_cases hk : k ∈ keysOf l
  · rw [keysOf_updateD_of_mem hk]
    exact h
  · rw [keysOf_updateD_of_not_mem hk]
    simp [List.nodup_append, h, hk]

theorem lookupD_eq_snd_of_mem {l : Dict} (hnd : (keysOf l).Nodup) {p : String × ℚ}
    (hp : p ∈ l) : lookupD l p.1 = p.2 := by
  induction l with
  | nil => cases hp
  | cons q rest ih =>
    simp only [keysOf, List.map_cons, List.nodup_cons] at hnd
    rcases List.mem_cons.mp hp with h | h
    · subst h
      simp [lookupD]
    · have hne : q.1 ≠ p.1 := by
        intro hc
        exact hnd.1 (hc ▸ List.mem_map_of_mem Prod.fst h)
      simp only [lookupD, if_neg hne]
      exact ih hnd.2 h

theorem KeysGood.updateD {names : List String} {l : Dict} (h : KeysGood names l)
    {k : String} (hk : k ∈ names) (v : ℚ) : KeysGood names (updateD l k v) := by
  have hmem : k ∈ keysOf l := (h.2 k).mpr hk
  rw [KeysGood, keysOf_updateD_of_mem hmem]
  exact h

/-! ### Generic lemmas about `foldl`-style dict update sweeps -/

theorem foldl_update_keysGood (g : Dict → String → ℚ) {names : List String} :
    ∀ {xs : List String} {vals : Dict}, (∀ a ∈ xs, a ∈ names) → KeysGood names vals →
      KeysGood names (List.foldl (fun d n => updateD d n (g d n)) vals xs)
  | [], _, _, h => h
  | a :: xs, vals, hsub, h => by
    rw [List.foldl_cons]
    exact foldl_update_keysGood g (fun b hb => hsub b (List.mem_cons_of_mem a hb))
      (h.updateD (hsub a (List.mem_cons_self a xs)) (g vals a))

theorem lookupD_foldl_update_not_mem (g : Dict → String → ℚ) {n : String} :
    ∀ {xs : List String} {vals : Dict}, n ∉ xs →
      lookupD (List.foldl (fun d a => updateD d a (g d a)) vals xs) n = lookupD vals n
  | [], _, _ => rfl
  | a :: xs, vals, hn => by
    rw [List.foldl_cons]
    have h1 : n ∉ xs := fun hc => hn (List.mem_cons_of_mem a hc)
    have h2 : n ≠ a := fun hc => hn (hc ▸ List.mem_cons_self a xs)
    rw [lookupD_foldl_update_not_mem g h1, lookupD_updateD_ne h2]

theorem foldl_update_lookup_form (g : Dict → String → ℚ) {n : String} :
    ∀ {xs : List String} (vals : Dict), n ∈ xs →
      ∃ d', lookupD (List.foldl (fun d a => updateD d a (g d a)) vals xs) n = g d' n
  | [], _, hn => absurd hn (List.not_mem_nil n)
  | a :: xs, vals, hn => by
    rw [List.foldl_cons]
    by_cases hx : n ∈ xs
    · exact foldl_update_lookup_form g _ hx
    · have ha : n = a := (List.mem_cons.mp hn).resolve_right hx
      subst ha
      refine ⟨vals, ?_⟩
      rw [lookupD_foldl_update_not_mem g hx, lookupD_updateD_self]

theorem foldl_update_keys_mem (g : Dict → String → ℚ) {k : String} :
    ∀ (xs : List String) {vals : Dict},
      k ∈ keysOf (List.foldl (fun d a => updateD d a (g d a)) vals xs) ↔
        k ∈ keysOf vals ∨ k ∈ xs
  | [], vals => by simp
  | a :: xs, vals => by
    rw [List.foldl_cons]
    rw [foldl_update_keys_mem g xs]
    rw [mem_keysOf_updateD]
    simp only [List.mem_cons]
    tauto

theorem foldl_update_keys_nodup (g : Dict → String → ℚ) :
    ∀ {xs : List String} {vals : Dict}, (keysOf vals).Nodup →
      (keysOf (List.foldl (fun d a => updateD d a (g d a)) vals xs)).Nodup
  | [], _, h => h
  | a :: xs, vals, h => by
    rw [List.foldl_cons]
    exact foldl_update_keys_nodup g (nodup_keysOf_updateD h a (g vals a))

theorem KeysGood_dictComp (names : List String) (f : String → ℚ) :
    KeysGood names (dictComp names f) := by
  constructor
  · exact foldl_update_keys_nodup (fun _ n => f n) (by simp [keysOf])
  · intro k
    rw [dictComp, foldl_update_keys_mem (fun _ n => f n) names]
    simp [keysOf]

/-! ### Key-set preservation through the allocator stages -/

theorem keysGood_clampPass (mins maxs : String → ℚ) {names : List String} :
    ∀ (pend : List String) (vals : Dict) (locked : String → Bool) (ch : Bool),
      (∀ a ∈ pend, a ∈ names) → KeysGood names vals →
      KeysGood names (clampPass mins maxs pend vals locked ch).1
  | [], _, _, _, _, h => h
  | n :: rest, vals, locked, ch, hsub, h => by
    have hn : n ∈ names := hsub n (List.mem_cons_self n rest)
    have hrest : ∀ a ∈ rest, a ∈ names := fun a ha => hsub a (List.mem_cons_of_mem n ha)
    simp only [clampPass]
    split
    · exact keysGood_clampPass mins maxs rest vals locked ch hrest h
    · split
      · exact keysGood_clampPass mins maxs rest _ _ true hrest (h.updateD hn _)
      · split
        · exact keysGood_clampPass mins maxs rest _ _ true hrest (h.updateD hn _)
        · exact keysGood_clampPass mins maxs rest vals locked ch hrest h

theorem keysGood_waterLoop (target : ℚ) (names : List String) (mins maxs weights : String → ℚ) :
    ∀ (fuel : ℕ) (vals : Dict) (locked : String → Bool), KeysGood names vals →
      KeysGood names (waterLoop target names mins maxs weights fuel vals locked).1
  | 0, _, _, h => h
  | fuel + 1, vals, locked, h => by
    have h1 : KeysGood names (clampPass mins maxs names vals locked false).1 :=
      keysGood_clampPass mins maxs names vals locked false (fun _ ha => ha) h
    simp only [waterLoop]
    split
    · exact keysGood_waterLoop target names mins maxs weights fuel _ _ h1
    · split
      · exact h1
      · split
        · exact h1
        · split
          · exact keysGood_waterLoop target names mins maxs weights fuel _ _
              (foldl_update_keysGood _ (fun a ha => (List.mem_filter.mp ha).1) h1)
          · exact keysGood_waterLoop target names mins maxs weights fuel _ _
              (foldl_update_keysGood _ (fun a ha => (List.mem_filter.mp ha).1) h1)

theorem keysGood_clampRound (mins maxs : String → ℚ) {names : List String} {vals : Dict}
    (h : KeysGood names vals) : KeysGood names (clampRound mins maxs names vals) :=
  foldl_update_keysGood _ (fun _ ha => ha) h

theorem lookupD_clampRound (mins maxs : String → ℚ) {names : List String} (vals : Dict)
    {n : String} (hn : n ∈ names) :
    ∃ w, lookupD (clampRound mins maxs names vals) n
      = roundQ 2 (max (min w (maxs n)) (mins n)) := by
  unfold clampRound
  obtain ⟨d', hd⟩ := foldl_update_lookup_form
    (fun d a => roundQ 2 (max (min (lookupD d a) (maxs a)) (mins a))) vals hn
  exact ⟨lookupD d' n, hd⟩

/-! ### Pointwise value facts after clamping, rounding and nudging -/

theorem clamp_arith {mn mx : ℚ} (hm : mn ≤ mx) (w : ℚ) :
    isPrec 2 (roundQ 2 (max (min w mx) mn)) ∧
    mn - 1/200 ≤ roundQ 2 (max (min w mx) mn) ∧
    roundQ 2 (max (min w mx) mn) ≤ mx + 1/200 := by
  refine ⟨isPrec_roundQ 2 _, ?_, ?_⟩
  · have h1 : mn ≤ max (min w mx) mn := le_max_right _ _
    have h2 := lt_roundQ 2 (max (min w mx) mn)
    norm_num at h2 ⊢
    linarith
  · have h1 : max (min w mx) mn ≤ mx := max_le (min_le_right _ _) hm
    have h2 := roundQ_le 2 (max (min w mx) mn)
    norm_num at h2 ⊢
    linarith

theorem nudge_arith {mn mx v diff : ℚ} (hm : mn ≤ mx)
    (hv : isPrec 2 v) (h1 : mn - 1/200 ≤ v) (h2 : v ≤ mx + 1/200) (hd : isPrec 2 diff) :
    isPrec 2 (roundQ 2 (v + max (-(roundQ 2 (v - mn))) (min (roundQ 2 (mx - v)) diff))) ∧
    mn - 1/200 ≤ roundQ 2 (v + max (-(roundQ 2 (v - mn))) (min (roundQ 2 (mx - v)) diff)) ∧
    roundQ 2 (v + max (-(roundQ 2 (v - mn))) (min (roundQ 2 (mx - v)) diff)) ≤ mx + 1/200 := by
  have hLp : isPrec 2 (roundQ 2 (v - mn)) := isPrec_roundQ 2 _
  have hHp : isPrec 2 (roundQ 2 (mx - v)) := isPrec_roundQ 2 _
  have hMp : isPrec 2 (max (-(roundQ 2 (v - mn))) (min (roundQ 2 (mx - v)) diff)) :=
    (hLp.neg).max (hHp.min hd)
  have heq : roundQ 2 (v + max (-(roundQ 2 (v - mn))) (min (roundQ 2 (mx - v)) diff))
      = v + max (-(roundQ 2 (v - mn))) (min (roundQ 2 (mx - v)) diff) :=
    roundQ_eq_self (hv.add hMp)
  have hLH : 0 ≤ roundQ 2 (v - mn) + roundQ 2 (mx - v) := by
    apply isPrec2_nonneg (hLp.add hHp)
    have a1 := lt_roundQ 2 (v - mn)
    have a2 := lt_roundQ 2 (mx - v)
    norm_num at a1 a2 ⊢
    linarith
  have hub : max (-(roundQ 2 (v - mn))) (min (roundQ 2 (mx - v)) diff) ≤ roundQ 2 (mx - v) :=
    max_le (by linarith) (min_le_left _ _)
  have hlb : -(roundQ 2 (v - mn)) ≤ max (-(roundQ 2 (v - mn))) (min (roundQ 2 (mx - v)) diff) :=
    le_max_left _ _
  have hLle := roundQ_le 2 (v - mn)
  have hHle := roundQ_le 2 (mx - v)
  norm_num at hLle hHle
  rw [heq]
  exact ⟨hv.add hMp, by linarith, by linarith⟩

theorem nudgeLoop_keysGood (target : ℚ) (mins maxs : String → ℚ) {names : List String} :
    ∀ (adj : List String) (vals : Dict) (diff : ℚ),
      (∀ a ∈ adj, a ∈ names) → KeysGood names vals →
      KeysGood names (nudgeLoop target mins maxs adj vals diff)
  | [], _, _, _, hk => hk
  | a :: rest, vals, diff, hsub, hk => by
    have ha : a ∈ names := hsub a (List.mem_cons_self a rest)
    have hrest : ∀ x ∈ rest, x ∈ names := fun x hx => hsub x (List.mem_cons_of_mem a hx)
    simp only [nudgeLoop]
    split
    · split
      · exact hk.updateD ha _
      · exact nudgeLoop_keysGood target mins maxs rest _ _ hrest (hk.updateD ha _)
    · exact nudgeLoop_keysGood target mins maxs rest vals diff hrest hk

theorem nudgeLoop_prec (target : ℚ) (mins maxs : String → ℚ) {names : List String} :
    ∀ (adj : List String) (vals : Dict) (diff : ℚ),
      (∀ n ∈ names, isPrec 2 (lookupD vals n)) →
      ∀ n ∈ names, isPrec 2 (lookupD (nudgeLoop target mins maxs adj vals diff) n)
  | [], _, _, hp => hp
  | a :: rest, vals, diff, hp => by
    have hp1 : ∀ w, ∀ n ∈ names, isPrec 2 (lookupD (updateD vals a (roundQ 2 w)) n) := by
      intro w n hn
      by_cases hna : n = a
      · subst hna
        rw [lookupD_updateD_self]
        exact isPrec_roundQ 2 _
      · rw [lookupD_updateD_ne hna]
        exact hp n hn
    simp only [nudgeLoop]
    split
    · split
      · exact hp1 _
      · exact nudgeLoop_prec target mins maxs rest _ _ (hp1 _)
    · exact nudgeLoop_prec target mins maxs rest vals diff hp

theorem nudgeLoop_point (target : ℚ) (mins maxs : String → ℚ) {names : List String}
    (hmm : ∀ n ∈ names, mins n ≤ maxs n) :
    ∀ (adj : List String) (vals : Dict) (diff : ℚ),
      (∀ a ∈ adj, a ∈ names) → isPrec 2 diff →
      (∀ n ∈ names, PointOk mins maxs n (lookupD vals n)) →
      ∀ n ∈ names, PointOk mins maxs n (lookupD (nudgeLoop target mins maxs adj vals diff) n)
  | [], _, _, _, _, hp => hp
  | a :: rest, vals, diff, hsub, hd, hp => by
    have ha : a ∈ names := hsub a (List.mem_cons_self a rest)
    have hrest : ∀ x ∈ rest, x ∈ names := fun x hx => hsub x (List.mem_cons_of_mem a hx)
    have harith := nudge_arith (hmm a ha) (hp a ha).1 (hp a ha).2.1 (hp a ha).2.2 hd
    have hp1 : ∀ n ∈ names, PointOk mins maxs n
        (lookupD (updateD vals a (roundQ 2 (lookupD vals a +
          max (-(roundQ 2 (lookupD vals a - mins a)))
            (min (roundQ 2 (maxs a - lookupD vals a)) diff)))) n) := by
      intro n hn
      by_cases hna : n = a
      · subst hna
        rw [lookupD_updateD_self]
        exact ⟨harith.1, harith.2.1, harith.2.2⟩
      · rw [lookupD_updateD_ne hna]
        exact hp n hn
    simp only [nudgeLoop]
    split
    · split
      · exact hp1
      · exact nudgeLoop_point target mins maxs hmm rest _ _ hrest (isPrec_roundQ 2 _) hp1
    · exact nudgeLoop_point target mins maxs hmm rest vals diff hrest hd hp

/-! ### Facts about the allocator's final assignment -/

theorem afterClamp_keysGood (target : ℚ) (names : List String) (mins maxs weights : String → ℚ) :
    KeysGood names (afterClamp target names mins maxs weights) := by
  unfold afterClamp
  apply keysGood_clampRound
  apply keysGood_waterLoop
  unfold initVals
  split
  · exact KeysGood_dictComp names _
  · exact KeysGood_dictComp names _

theorem afterClamp_prec (target : ℚ) (names : List String) (mins maxs weights : String → ℚ) :
    ∀ n ∈ names, isPrec 2 (lookupD (afterClamp target names mins maxs weights) n) := by
  intro n hn
  unfold afterClamp
  obtain ⟨w, hw⟩ := lookupD_clampRound mins maxs
    (waterLoop target names mins maxs weights allocatorMaxPasses
      (initVals target names weights) (fun _ => false)).1 hn
  rw [hw]
  exact isPrec_roundQ 2 _

theorem afterClamp_point {target : ℚ} {names : List String} {mins maxs weights : String → ℚ}
    (hmm : ∀ n ∈ names, mins n ≤ maxs n) :
    ∀ n ∈ names, PointOk mins maxs n (lookupD (afterClamp target names mins maxs weights) n) := by
  intro n hn
  unfold afterClamp
  obtain ⟨w, hw⟩ := lookupD_clampRound mins maxs
    (waterLoop target names mins maxs weights allocatorMaxPasses
      (initVals target names weights) (fun _ => false)).1 hn
  rw [hw]
  have h := clamp_arith (hmm n hn) w
  exact ⟨h.1, h.2.1, h.2.2⟩

theorem adjustableList_sub {names : List String} {mins maxs : String → ℚ} {vals : Dict} :
    ∀ a ∈ adjustableList names mins maxs vals, a ∈ names :=
  fun a ha => (List.mem_filter.mp ha).1

theorem allocCore_keysGood (target : ℚ) (names : List String) (mins maxs weights : String → ℚ) :
    KeysGood names (allocCore target names mins maxs weights) := by
  unfold allocCore
  split
  · exact nudgeLoop_keysGood target mins maxs _ _ _ adjustableList_sub
      (afterClamp_keysGood target names mins maxs weights)
  · exact afterClamp_keysGood target names mins maxs weights

theorem allocCore_prec (target : ℚ) (names : List String) (mins maxs weights : String → ℚ) :
    ∀ n ∈ names, isPrec 2 (lookupD (allocCore target names mins maxs weights) n) := by
  unfold allocCore
  split
  · exact nudgeLoop_prec target mins maxs _ _ _ (afterClamp_prec target names mins maxs weights)
  · exact afterClamp_prec target names mins maxs weights

theorem allocCore_point (target : ℚ) (names : List String) (mins maxs weights : String → ℚ)
    (hmm : ∀ n ∈ names, mins n ≤ maxs n) :
    ∀ n ∈ names, PointOk mins maxs n (lookupD (allocCore target names mins maxs weights) n) := by
  unfold allocCore
  split
  · exact nudgeLoop_point target mins maxs hmm _ _ _ adjustableList_sub
      (isPrec_roundQ 2 _) (afterClamp_point hmm)
  · exact afterClamp_point hmm

/-! ### The allocator's success and failure shapes -/

theorem distribute_ok_iff {target : ℚ} {names : List String} {mins maxs weights : String → ℚ}
    {vals : Dict} :
    distribute_within_bounds target names mins maxs weights = .ok vals ↔
      ¬(target + eps9 < minSum names mins ∨ maxSum names maxs < target - eps9) ∧
      |roundQ 2 (namesSum names (allocCore target names mins maxs weights)) - target| ≤ 1/100 ∧
      vals = allocCore target names mins maxs weights := by
  unfold distribute_within_bounds
  constructor
  · intro h
    split_ifs at h with h1 h2
    exact ⟨h1, not_lt.mp h2, (Except.ok.inj h).symm⟩
  · rintro ⟨h1, h2, rfl⟩
    rw [if_neg h1, if_neg (not_lt.mpr h2)]

theorem distribute_infeasible {target : ℚ} {names : List String} {mins maxs weights : String → ℚ}
    (h : target + eps9 < minSum names mins ∨ maxSum names maxs < target - eps9) :
    distribute_within_bounds target names mins maxs weights = .error .infeasibleTarget := by
  unfold distribute_within_bounds
  rw [if_pos h]

theorem distribute_feasible_ne {target : ℚ} {names : List String} {mins maxs weights : String → ℚ}
    (h : ¬(target + eps9 < minSum names mins ∨ maxSum names maxs < target - eps9)) :
    distribute_within_bounds target names mins maxs weights ≠ .error .infeasibleTarget := by
  unfold distribute_within_bounds
  rw [if_neg h]
  split_ifs <;> simp

theorem alloc_namesSum {target : ℚ} {names : List String} {mins maxs weights : String → ℚ}
    {vals : Dict} (h : distribute_within_bounds target names mins maxs weights = .ok vals) :
    |namesSum names vals - target| ≤ 1/100 := by
  obtain ⟨_, h2, rfl⟩ := distribute_ok_iff.mp h
  have hprec : isPrec 2 (namesSum names (allocCore target names mins maxs weights)) := by
    apply isPrec_sum
    intro x hx
    obtain ⟨n, hn, rfl⟩ := List.mem_map.mp hx
    exact allocCore_prec target names mins maxs weights n hn
  rwa [roundQ_eq_self hprec] at h2

theorem sndSum_eq_namesSum {names : List String} {l : Dict} (hk : KeysGood names l)
    (hnd : names.Nodup) : sndSum l = namesSum names l := by
  have h1 : l.map Prod.snd = l.map (fun p => lookupD l p.1) :=
    List.map_congr_left (fun p hp => (lookupD_eq_snd_of_mem hk.1 hp).symm)
  have h2 : l.map (fun p => lookupD l p.1) = (keysOf l).map (lookupD l) := by
    rw [keysOf, List.map_map]
    rfl
  have hperm : List.Perm (keysOf l) names := by
    apply List.perm_of_nodup_nodup_toFinset_eq hk.1 hnd
    ext a
    simp [List.mem_toFinset, hk.2 a]
  calc sndSum l = ((keysOf l).map (lookupD l)).sum := by rw [sndSum, h1, h2]
    _ = (names.map (lookupD l)).sum := (hperm.map (lookupD l)).sum_eq
    _ = namesSum names l := rfl

/-! ### Concrete values of the bounds table -/

theorem oMins_fat : oMins "fat" = 0.45 := by with_unfolding_all rfl

theorem oMaxs_fat : oMaxs "fat" = 0.55 := by with_unfolding_all rfl

theorem oMins_air : oMins "air" = 2.90 := by with_unfolding_all rfl

theorem oMaxs_air : oMaxs "air" = 3.10 := by with_unfolding_all rfl

theorem oMins_ash : oMins "ash" = 0.45 := by with_unfolding_all rfl

theorem oMaxs_ash : oMaxs "ash" = 0.55 := by with_unfolding_all rfl

theorem oMins_protein : oMins "protein" = 2.45 := by with_unfolding_all rfl

theorem oMaxs_protein : oMaxs "protein" = 2.55 := by with_unfolding_all rfl

theorem oMins_gum : oMins "gum" = 80.10 := by with_unfolding_all rfl

theorem oMaxs_gum : oMaxs "gum" = 89.95 := by with_unfolding_all rfl

theorem minSum_others : minSum others oMins = 6.25 := by with_unfolding_all rfl

theorem maxSum_others : maxSum others oMaxs = 6.75 := by with_unfolding_all rfl

theorem othersMidSum_eq : othersMidSum = 6.5 := by with_unfolding_all rfl

theorem oMins_le_oMaxs : ∀ n ∈ others, oMins n ≤ oMaxs n := by
  intro n hn
  fin_cases hn
  · rw [oMins_fat, oMaxs_fat]; norm_num
  · rw [oMins_air, oMaxs_air]; norm_num
  · rw [oMins_ash, oMaxs_ash]; norm_num
  · rw [oMins_protein, oMaxs_protein]; norm_num

theorem namesSum_others (l : Dict) : namesSum others l =
    lookupD l "fat" + lookupD l "air" + lookupD l "ash" + lookupD l "protein" := by
  simp [namesSum, others]
  ring

/-! ### Iteration counting -/

theorem waterLoop_passes_le (target : ℚ) (names : List String)
    (mins maxs weights : String → ℚ) :
    ∀ (fuel : ℕ) (vals : Dict) (locked : String → Bool),
      (waterLoop target names mins maxs weights fuel vals locked).2 ≤ fuel
  | 0, _, _ => le_refl 0
  | fuel + 1, vals, locked => by
    simp only [waterLoop]
    split
    · exact Nat.succ_le_succ (waterLoop_passes_le target names mins maxs weights fuel _ _)
    · split
      · exact Nat.succ_le_succ (Nat.zero_le fuel)
      · split
        · exact Nat.succ_le_succ (Nat.zero_le fuel)
        · split
          · exact Nat.succ_le_succ (waterLoop_passes_le target names mins maxs weights fuel _ _)
          · exact Nat.succ_le_succ (waterLoop_passes_le target names mins maxs weights fuel _ _)

theorem randLoop_attempts_le (m remaining : ℚ) (u : ℕ → ℚ) :
    ∀ (fuel k : ℕ), (randLoop m remaining u k fuel).2 ≤ fuel
  | 0, _ => le_refl 0
  | fuel + 1, k => by
    simp only [randLoop]
    split
    · split
      · exact Nat.succ_le_succ (Nat.zero_le fuel)
      · exact Nat.succ_le_succ (Nat.zero_le fuel)
    · split
      · split
        · split
          · exact Nat.succ_le_succ (Nat.zero_le fuel)
          · exact Nat.succ_le_succ (Nat.zero_le fuel)
        · exact Nat.succ_le_succ (Nat.zero_le fuel)
      · exact Nat.succ_le_succ (randLoop_attempts_le m remaining u fuel (k + 1))

/-! ### Deterministic-solver helper lemmas -/

theorem tryEndpoints_ok {m remaining : ℚ} {r : Comp5} :
    ∀ {gl : List ℚ}, tryEndpoints m remaining gl = .ok r →
      ∃ g ∈ gl, detEndpointResult m remaining g = .ok r
  | [], h => by simp [tryEndpoints] at h
  | g :: rest, h => by
    rw [tryEndpoints] at h
    cases hd : detEndpointResult m remaining g with
    | ok r' =>
      rw [hd] at h
      dsimp only at h
      exact ⟨g, List.mem_cons_self g rest, Except.ok.inj h ▸ hd⟩
    | error e =>
      rw [hd] at h
      dsimp only at h
      obtain ⟨g', hmem, hg'⟩ := tryEndpoints_ok h
      exact ⟨g', List.mem_cons_of_mem g hmem, hg'⟩

theorem isPrec2_hundred : isPrec 2 (100 : ℚ) := ⟨10000, by norm_num⟩

theorem rM_fat : roundQ 2 (MIDS "fat") = 0.5 := by with_unfolding_all rfl

theorem rM_air : roundQ 2 (MIDS "air") = 3 := by with_unfolding_all rfl

theorem rM_ash : roundQ 2 (MIDS "ash") = 0.5 := by with_unfolding_all rfl

theorem rM_protein : roundQ 2 (MIDS "protein") = 2.5 := by with_unfolding_all rfl

/-- The key rounding estimate of the 6-way total: if the raw total is within
`0.01005` of 100, the rounded total is within `0.01`. -/
theorem round2_near_100 {T : ℚ} (h : |T - 100| ≤ 201/20000) :
    |roundQ 2 T - 100| ≤ 1/100 := by
  rw [abs_le] at h ⊢
  constructor
  · have h1 := roundQ_mono 2 (x := (100:ℚ) - 201/20000) (y := T) (by linarith)
    rw [show roundQ 2 ((100:ℚ) - 201/20000) = 99.99 from by with_unfolding_all rfl] at h1
    norm_num at h1 ⊢
    linarith
  · have h1 := roundQ_mono 2 (x := T) (y := (100:ℚ) + 201/20000) (by linarith)
    rw [show roundQ 2 ((100:ℚ) + 201/20000) = 100.01 from by with_unfolding_all rfl] at h1
    norm_num at h1 ⊢
    linarith

/-- The midpoint branch's 6-way total is always within 0.01 of 100 after
rounding (both with and without the residual push into gum). -/
theorem detMid_total (m : ℚ) {g p a ai f : ℚ}
    (h : detMidResult m = .ok (g, p, a, ai, f)) :
    |roundQ 2 (m + f + ai + a + p + g) - 100| ≤ 1/100 := by
  unfold detMidResult at h
  dsimp only at h
  split at h
  next hcorr =>
    simp only [Except.ok.injEq, Prod.mk.injEq] at h
    obtain ⟨rfl, rfl, rfl, rfl, rfl⟩ := h
    rw [rM_fat, rM_air, rM_ash, rM_protein] at hcorr ⊢
    set g0 := roundQ 2 (gumNeeded m) with hg0
    set T0 := m + 0.5 + 3 + 0.5 + 2.5 + g0 with hT0
    have hprec : isPrec 2 (g0 + (100 - roundQ 2 T0)) :=
      (isPrec_roundQ 2 _).add (isPrec2_hundred.sub (isPrec_roundQ 2 _))
    rw [roundQ_eq_self hprec]
    apply round2_near_100
    have he : m + 0.5 + 3 + 0.5 + 2.5 + (g0 + (100 - roundQ 2 T0)) - 100
        = -(roundQ 2 T0 - T0) := by
      rw [hT0]; ring
    rw [he, abs_neg]
    have habs := abs_roundQ_sub_le 2 T0
    norm_num at habs
    linarith
  next hcorr =>
    simp only [Except.ok.injEq, Prod.mk.injEq] at h
    obtain ⟨rfl, rfl, rfl, rfl, rfl⟩ := h
    rw [rM_fat, rM_air, rM_ash, rM_protein] at hcorr ⊢
    exact not_lt.mp hcorr

/-- Either endpoint branch's 6-way total is within 0.01 of 100 after
rounding: the allocator's 0.01 sum tolerance plus the `round(·, 4)` error on
`remaining` keeps the raw total within 0.01005 of 100, so the residual push
is safe when applied and harmless when rejected. -/
theorem detEndpoint_total {m remaining gumTry : ℚ} {g p a ai f : ℚ}
    (hrem : |remaining - (100 - m)| ≤ 1/20000) (hremP : isPrec 4 remaining)
    (hgum : isPrec 2 gumTry)
    (h : detEndpointResult m remaining gumTry = .ok (g, p, a, ai, f)) :
    |roundQ 2 (m + f + ai + a + p + g) - 100| ≤ 1/100 := by
  unfold detEndpointResult at h
  cases hd : distribute_within_bounds (roundQ 4 (remaining - gumTry)) others oMins oMaxs MIDS with
  | error e =>
    rw [hd] at h
    simp at h
  | ok allocated =>
    rw [hd] at h
    dsimp only at h
    have hg2 : roundQ 2 gumTry = gumTry := roundQ_eq_self hgum
    have havail : roundQ 4 (remaining - gumTry) = remaining - gumTry :=
      roundQ_eq_self (hremP.sub (isPrec_two_four hgum))
    have hsum := alloc_namesSum hd
    rw [havail, namesSum_others] at hsum
    have hT0 : |m + lookupD allocated "fat" + lookupD allocated "air" + lookupD allocated "ash"
        + lookupD allocated "protein" + gumTry - 100| ≤ 201/20000 := by
      rw [abs_le] at hrem hsum ⊢
      constructor <;> linarith
    have hround := round2_near_100 hT0
    split at h
    next h1 =>
      split at h
      next h2 =>
        simp only [Except.ok.injEq, Prod.mk.injEq] at h
        obtain ⟨rfl, rfl, rfl, rfl, rfl⟩ := h
        rw [hg2]
        set T0 := m + lookupD allocated "fat" + lookupD allocated "air" + lookupD allocated "ash"
          + lookupD allocated "protein" + gumTry with hT0e
        have hres : roundQ 2 (100 - roundQ 2 T0) = 100 - roundQ 2 T0 :=
          roundQ_eq_self (isPrec2_hundred.sub (isPrec_roundQ 2 _))
        rw [hres]
        have hprec : isPrec 2 (gumTry + (100 - roundQ 2 T0)) :=
          hgum.add (isPrec2_hundred.sub (isPrec_roundQ 2 _))
        rw [roundQ_eq_self hprec]
        apply round2_near_100
        have he : m + lookupD allocated "fat" + lookupD allocated "air" + lookupD allocated "ash"
            + lookupD allocated "protein" + (gumTry + (100 - roundQ 2 T0)) - 100
            = -(roundQ 2 T0 - T0) := by
          rw [hT0e]; ring
        rw [he, abs_neg]
        have habs := abs_roundQ_sub_le 2 T0
        norm_num at habs
        linarith
      next h2 =>
        simp only [Except.ok.injEq, Prod.mk.injEq] at h
        obtain ⟨rfl, rfl, rfl, rfl, rfl⟩ := h
        rw [hg2]
        exact hround
    next h1 =>
      simp only [Except.ok.injEq, Prod.mk.injEq] at h
      obtain ⟨rfl, rfl, rfl, rfl, rfl⟩ := h
      rw [hg2]
      exact hround

/-! ### Out-of-range moisture: what the solvers actually do -/

theorem remaining_le_zero {m : ℚ} (hm : 100 < m) : roundQ 4 (100 - m) ≤ 0 := by
  have h := roundQ_mono 4 (x := 100 - m) (y := 0) (by linarith)
  rwa [show roundQ 4 (0:ℚ) = 0 from by with_unfolding_all rfl] at h

theorem remaining_ge_100 {m : ℚ} (hm : m < 0) : 100 ≤ roundQ 4 (100 - m) := by
  have h := roundQ_mono 4 (x := (100:ℚ)) (y := 100 - m) (by linarith)
  rwa [show roundQ 4 (100:ℚ) = 100 from by with_unfolding_all rfl] at h

theorem gumNeeded_out_of_bounds {m : ℚ} (hm : m < 0 ∨ 100 < m) :
    ¬(oMins "gum" - eps9 ≤ gumNeeded m ∧ gumNeeded m ≤ oMaxs "gum" + eps9) := by
  rw [oMins_gum, oMaxs_gum]
  unfold gumNeeded
  rw [othersMidSum_eq]
  rcases hm with hm | hm
  · have h1 := remaining_ge_100 hm
    have h2 : (93.5:ℚ) ≤ roundQ 4 (roundQ 4 (100 - m) - 6.5) := by
      have h3 := roundQ_mono 4 (x := (93.5:ℚ)) (y := roundQ 4 (100 - m) - 6.5) (by linarith)
      rwa [show roundQ 4 (93.5:ℚ) = 93.5 from by with_unfolding_all rfl] at h3
    rintro ⟨_, hb⟩
    rw [eps9] at hb
    norm_num at hb h2
    linarith
  · have h1 := remaining_le_zero hm
    have h2 : roundQ 4 (roundQ 4 (100 - m) - 6.5) ≤ -6.5 := by
      have h3 := roundQ_mono 4 (x := roundQ 4 (100 - m) - 6.5) (y := (-6.5:ℚ)) (by linarith)
      rwa [show roundQ 4 (-6.5:ℚ) = -6.5 from by with_unfolding_all rfl] at h3
    rintro ⟨ha, _⟩
    rw [eps9] at ha
    norm_num at ha h2
    linarith

theorem endpoint_infeasible {m : ℚ} (hm : m < 0 ∨ 100 < m) {g : ℚ}
    (hg : g = oMins "gum" ∨ g = oMaxs "gum") :
    detEndpointResult m (roundQ 4 (100 - m)) g = .error .infeasibleTarget := by
  unfold detEndpointResult
  have hdist : distribute_within_bounds (roundQ 4 (roundQ 4 (100 - m) - g)) others oMins oMaxs MIDS
      = .error .infeasibleTarget := by
    apply distribute_infeasible
    rw [minSum_others, maxSum_others]
    rcases hm with hm | hm
    · right
      have h1 := remaining_ge_100 hm
      have hgle : g ≤ 89.95 := by
        rcases hg with rfl | rfl
        · rw [oMins_gum]; norm_num
        · rw [oMaxs_gum]
      have h2 : (10.05:ℚ) ≤ roundQ 4 (roundQ 4 (100 - m) - g) := by
        have h3 := roundQ_mono 4 (x := (10.05:ℚ)) (y := roundQ 4 (100 - m) - g) (by linarith)
        rwa [show roundQ 4 (10.05:ℚ) = 10.05 from by with_unfolding_all rfl] at h3
      rw [eps9]
      norm_num at h2 ⊢
      linarith
    · left
      have h1 := remaining_le_zero hm
      have hgge : (80.10:ℚ) ≤ g := by
        rcases hg with rfl | rfl
        · rw [oMins_gum]
        · rw [oMaxs_gum]; norm_num
      have h2 : roundQ 4 (roundQ 4 (100 - m) - g) ≤ -80.10 := by
        have h3 := roundQ_mono 4 (x := roundQ 4 (100 - m) - g) (y := (-80.10:ℚ)) (by linarith)
        rwa [show roundQ 4 (-80.10:ℚ) = -80.10 from by with_unfolding_all rfl] at h3
      rw [eps9]
      norm_num at h2 ⊢
      linarith
  rw [hdist]

theorem det_outside_moisture {m : ℚ} (hm : m < 0 ∨ 100 < m) :
    calculate_components_deterministic m = .error .componentsUnreachable := by
  unfold calculate_components_deterministic
  rw [if_neg (gumNeeded_out_of_bounds hm)]
  have h1 := endpoint_infeasible hm (Or.inl (rfl : oMins "gum" = oMins "gum"))
  have h2 := endpoint_infeasible hm (Or.inr (rfl : oMaxs "gum" = oMaxs "gum"))
  simp only [gumTryList, tryEndpoints, h1, h2]

theorem uniformQ_mem {a b t : ℚ} (hab : a ≤ b) (h0 : 0 ≤ t) (h1 : t ≤ 1) :
    a ≤ uniformQ a b t ∧ uniformQ a b t ≤ b := by
  unfold uniformQ
  constructor
  · nlinarith
  · nlinarith

theorem randSample_bounds {o : String} (lo hi : ℚ)
    (hlo : (RANGES o).1 = lo) (hhi : (RANGES o).2 = hi)
    (hrlo : roundQ 4 lo = lo) (hrhi : roundQ 4 hi = hi) (hab : lo ≤ hi)
    {t : ℚ} (h0 : 0 ≤ t) (h1 : t ≤ 1) :
    lo ≤ randSample o t ∧ randSample o t ≤ hi := by
  unfold randSample
  rw [hlo, hhi]
  obtain ⟨hl, hr⟩ := uniformQ_mem hab h0 h1
  constructor
  · have h2 := roundQ_mono 4 hl
    rwa [hrlo] at h2
  · have h2 := roundQ_mono 4 hr
    rwa [hrhi] at h2

/-- With out-of-range moisture (`remaining ≤ 0` or `remaining ≥ 100`) every
attempt of the randomized solver fails: the implied gum is always out of its
bounds and the allocator's feasibility gate always fires, so the loop
exhausts its budget. -/
theorem randLoop_outside_fails (m remaining : ℚ) (u : ℕ → ℚ)
    (hrem : remaining ≤ 0 ∨ 100 ≤ remaining)
    (hu : ∀ i, 0 ≤ u i ∧ u i ≤ 1) :
    ∀ (fuel k : ℕ), (randLoop m remaining u k fuel).1 = .error .randomFailed
  | 0, _ => rfl
  | fuel + 1, k => by
    have hf := randSample_bounds (o := "fat") 0.45 0.55
      (by with_unfolding_all rfl) (by with_unfolding_all rfl)
      (by with_unfolding_all rfl) (by with_unfolding_all rfl) (by norm_num)
      (hu (9*k)).1 (hu (9*k)).2
    have ha := randSample_bounds (o := "air") 2.90 3.10
      (by with_unfolding_all rfl) (by with_unfolding_all rfl)
      (by with_unfolding_all rfl) (by with_unfolding_all rfl) (by norm_num)
      (hu (9*k+1)).1 (hu (9*k+1)).2
    have hs := randSample_bounds (o := "ash") 0.45 0.55
      (by with_unfolding_all rfl) (by with_unfolding_all rfl)
      (by with_unfolding_all rfl) (by with_unfolding_all rfl) (by norm_num)
      (hu (9*k+2)).1 (hu (9*k+2)).2
    have hp := randSample_bounds (o := "protein") 2.45 2.55
      (by with_unfolding_all rfl) (by with_unfolding_all rfl)
      (by with_unfolding_all rfl) (by with_unfolding_all rfl) (by norm_num)
      (hu (9*k+3)).1 (hu (9*k+3)).2
    have hgt : (80.10:ℚ) ≤ roundQ 4 (uniformQ (oMins "gum") (oMaxs "gum") (u (9*k+4))) ∧
        roundQ 4 (uniformQ (oMins "gum") (oMaxs "gum") (u (9*k+4))) ≤ 89.95 := by
      rw [oMins_gum, oMaxs_gum]
      obtain ⟨hl, hr⟩ := uniformQ_mem (by norm_num : (80.10:ℚ) ≤ 89.95)
        (hu (9*k+4)).1 (hu (9*k+4)).2
      constructor
      · have h2 := roundQ_mono 4 hl
        rwa [show roundQ 4 (80.10:ℚ) = 80.10 from by with_unfolding_all rfl] at h2
      · have h2 := roundQ_mono 4 hr
        rwa [show roundQ 4 (89.95:ℚ) = 89.95 from by with_unfolding_all rfl] at h2
    have hguard : ¬(oMins "gum" - eps9 ≤ roundQ 4 (remaining - (randSample "fat" (u (9*k)) +
        randSample "air" (u (9*k+1)) + randSample "ash" (u (9*k+2)) +
        randSample "protein" (u (9*k+3)))) ∧
        roundQ 4 (remaining - (randSample "fat" (u (9*k)) + randSample "air" (u (9*k+1)) +
          randSample "ash" (u (9*k+2)) + randSample "protein" (u (9*k+3)))) ≤
          oMaxs "gum" + eps9) := by
      rw [oMins_gum, oMaxs_gum, eps9]
      rcases hrem with hrem | hrem
      · have hb : roundQ 4 (remaining - (randSample "fat" (u (9*k)) + randSample "air" (u (9*k+1)) +
            randSample "ash" (u (9*k+2)) + randSample "protein" (u (9*k+3)))) ≤ -6.25 := by
          have h2 := roundQ_mono 4 (y := (-6.25:ℚ))
            (by linarith [hf.1, ha.1, hs.1, hp.1] :
              remaining - (randSample "fat" (u (9*k)) + randSample "air" (u (9*k+1)) +
                randSample "ash" (u (9*k+2)) + randSample "protein" (u (9*k+3))) ≤ (-6.25:ℚ))
          rwa [show roundQ 4 (-6.25:ℚ) = -6.25 from by with_unfolding_all rfl] at h2
        rintro ⟨hc, _⟩
        norm_num at hc hb
        linarith
      · have hb : (93.25:ℚ) ≤ roundQ 4 (remaining - (randSample "fat" (u (9*k)) +
            randSample "air" (u (9*k+1)) + randSample "ash" (u (9*k+2)) +
            randSample "protein" (u (9*k+3)))) := by
          have h2 := roundQ_mono 4 (x := (93.25:ℚ))
            (by linarith [hf.2, ha.2, hs.2, hp.2] :
              (93.25:ℚ) ≤ remaining - (randSample "fat" (u (9*k)) + randSample "air" (u (9*k+1)) +
                randSample "ash" (u (9*k+2)) + randSample "protein" (u (9*k+3))))
          rwa [show roundQ 4 (93.25:ℚ) = 93.25 from by with_unfolding_all rfl] at h2
        rintro ⟨_, hc⟩
        norm_num at hc hb
        linarith
    have hdist : distribute_within_bounds
        (roundQ 4 (remaining - roundQ 4 (uniformQ (oMins "gum") (oMaxs "gum") (u (9*k+4)))))
        others oMins oMaxs (randWeights u k) = .error .infeasibleTarget := by
      apply distribute_infeasible
      rw [minSum_others, maxSum_others, eps9]
      rcases hrem with hrem | hrem
      · left
        have hb : roundQ 4 (remaining -
            roundQ 4 (uniformQ (oMins "gum") (oMaxs "gum") (u (9*k+4)))) ≤ -80.10 := by
          have h2 := roundQ_mono 4 (y := (-80.10:ℚ))
            (by linarith [hgt.1] : remaining -
              roundQ 4 (uniformQ (oMins "gum") (oMaxs "gum") (u (9*k+4))) ≤ (-80.10:ℚ))
          rwa [show roundQ 4 (-80.10:ℚ) = -80.10 from by with_unfolding_all rfl] at h2
        norm_num at hb ⊢
        linarith
      · right
        have hb : (10.05:ℚ) ≤ roundQ 4 (remaining -
            roundQ 4 (uniformQ (oMins "gum") (oMaxs "gum") (u (9*k+4)))) := by
          have h2 := roundQ_mono 4 (x := (10.05:ℚ))
            (by linarith [hgt.2] : (10.05:ℚ) ≤ remaining -
              roundQ 4 (uniformQ (oMins "gum") (oMaxs "gum") (u (9*k+4))))
          rwa [show roundQ 4 (10.05:ℚ) = 10.05 from by with_unfolding_all rfl] at h2
        norm_num at hb ⊢
        linarith
    simp only [randLoop]
    split
    next hin => exact absurd hin hguard
    next hin =>
      rw [hdist]
      exact randLoop_outside_fails m remaining u hrem hu fuel (k+1)

theorem random_outside_fails {m : ℚ} (hm : m < 0 ∨ 100 < m) (u : ℕ → ℚ)
    (hu : ∀ i, 0 ≤ u i ∧ u i ≤ 1) :
    calculate_components_random m u = .error .randomFailed := by
  unfold calculate_components_random
  apply randLoop_outside_fails
  · rcases hm with hm | hm
    · exact Or.inr (remaining_ge_100 hm)
    · exact Or.inl (remaining_le_zero hm)
  · exact hu

/-! ### The claims -/

/-- C1: for every successful call of `distribute_within_bounds` (on distinct
component names) the sum of the returned mapping's values differs from the
requested target by at most 0.01; and when the redistribution/rounding
procedure misses the target by more than 0.01, the feasible call fails with
`AllocationUnreachable` instead of returning that assignment. -/
theorem alloc_sum_within_tolerance (target : ℚ) (names : List String)
    (mins maxs weights : String → ℚ) (hnd : names.Nodup) :
    (∀ vals, distribute_within_bounds target names mins maxs weights = .ok vals →
      |sndSum vals - target| ≤ 1/100) ∧
    (¬(target + eps9 < minSum names mins ∨ maxSum names maxs < target - eps9) →
      1/100 < |roundQ 2 (namesSum names (allocCore target names mins maxs weights)) - target| →
      distribute_within_bounds target names mins maxs weights = .error .allocationUnreachable) := by
  constructor
  · intro vals h
    obtain ⟨_, _, rfl⟩ := distribute_ok_iff.mp h
    rw [sndSum_eq_namesSum (allocCore_keysGood target names mins maxs weights) hnd]
    exact alloc_namesSum h
  · intro h1 h2
    unfold distribute_within_bounds
    rw [if_neg h1, if_pos h2]

theorem alloc_sum_within_tolerance_witness :
    |sndSum [("fat", (0.5:ℚ)), ("air", 3), ("ash", 0.5), ("protein", 2.5)] - 6.5| ≤ 1/100 :=
  (alloc_sum_within_tolerance 6.5 others oMins oMaxs MIDS (by decide)).1
    [("fat", 0.5), ("air", 3), ("ash", 0.5), ("protein", 2.5)] (by with_unfolding_all rfl)

/-- C2: for every successful call of `distribute_within_bounds` (with
well-ordered bounds) every returned value lies within its component's
inclusive `[min, max]` interval up to the rounding tolerance 0.01, and every
returned value is a 2-decimal quantity. -/
theorem alloc_values_in_bounds_rounded (target : ℚ) (names : List String)
    (mins maxs weights : String → ℚ) (vals : Dict)
    (hb : ∀ n ∈ names, mins n ≤ maxs n)
    (h : distribute_within_bounds target names mins maxs weights = .ok vals) :
    ∀ p ∈ vals, (mins p.1 - 1/100 ≤ p.2 ∧ p.2 ≤ maxs p.1 + 1/100) ∧ isPrec 2 p.2 := by
  obtain ⟨_, _, rfl⟩ := distribute_ok_iff.mp h
  intro p hp
  have hk := allocCore_keysGood target names mins maxs weights
  have hmem : p.1 ∈ keysOf (allocCore target names mins maxs weights) :=
    List.mem_map_of_mem Prod.fst hp
  have hn : p.1 ∈ names := (hk.2 p.1).mp hmem
  have hv : lookupD (allocCore target names mins maxs weights) p.1 = p.2 :=
    lookupD_eq_snd_of_mem hk.1 hp
  have hpoint := allocCore_point target names mins maxs weights hb p.1 hn
  rw [hv] at hpoint
  exact ⟨⟨by linarith [hpoint.2.1], by linarith [hpoint.2.2]⟩, hpoint.1⟩

theorem alloc_values_in_bounds_rounded_witness :
    (oMins "fat" - 1/100 ≤ (0.5:ℚ) ∧ (0.5:ℚ) ≤ oMaxs "fat" + 1/100) ∧ isPrec 2 (0.5:ℚ) :=
  alloc_values_in_bounds_rounded 6.5 others oMins oMaxs MIDS
    [("fat", 0.5), ("air", 3), ("ash", 0.5), ("protein", 2.5)]
    oMins_le_oMaxs (by with_unfolding_all rfl)
    ("fat", 0.5) (List.mem_cons_self _ _)

/-- C3 (amended): `distribute_within_bounds` fails with `InfeasibleTarget`
whenever the target is below `sum(mins) - 1e-9` or above `sum(maxs) + 1e-9`;
for a target inside that widened range it never fails with
`InfeasibleTarget` (it may still fail with `AllocationUnreachable`, as the
counterexample shows, so "never fails" does not hold unconditionally). -/
theorem feasibility_gate (target : ℚ) (names : List String)
    (mins maxs weights : String → ℚ) :
    ((target < minSum names mins - eps9 ∨ maxSum names maxs + eps9 < target) →
      distribute_within_bounds target names mins maxs weights = .error .infeasibleTarget) ∧
    (minSum names mins - eps9 ≤ target → target ≤ maxSum names maxs + eps9 →
      distribute_within_bounds target names mins maxs weights ≠ .error .infeasibleTarget) := by
  constructor
  · intro h
    apply distribute_infeasible
    rcases h with h | h
    · exact Or.inl (by linarith)
    · exact Or.inr (by linarith)
  · intro h1 h2
    apply distribute_feasible_ne
    rintro (h | h) <;> linarith

theorem feasibility_gate_witness :
    distribute_within_bounds 100 others oMins oMaxs MIDS = .error .infeasibleTarget ∧
    distribute_within_bounds 6.5 others oMins oMaxs MIDS ≠ .error .infeasibleTarget := by
  constructor
  · apply (feasibility_gate 100 others oMins oMaxs MIDS).1
    right
    rw [maxSum_others, eps9]
    norm_num
  · apply (feasibility_gate 6.5 others oMins oMaxs MIDS).2
    · rw [minSum_others, eps9]
      norm_num
    · rw [maxSum_others, eps9]
      norm_num

/-- C3 counterexample: a target strictly inside `[sum(mins), sum(maxs)]`
with ample room for rounding on which the allocator nevertheless fails
(with `AllocationUnreachable`): two components in `[0,1]` with weights
`3` and `-1` and target `1.5`.  Both components get clamped to the wrong
bounds and locked, leaving no adjustable component for the nudge. -/
theorem feasible_target_failure_counterexample :
    minSum ["a", "b"] (fun _ => 0) < 3/2 ∧
    (3/2 : ℚ) < maxSum ["a", "b"] (fun _ => 1) ∧
    distribute_within_bounds (3/2) ["a", "b"] (fun _ => 0) (fun _ => 1)
      (fun n => if n = "a" then 3 else -1) = .error .allocationUnreachable := by
  refine ⟨?_, ?_, by with_unfolding_all rfl⟩
  · rw [show minSum ["a", "b"] (fun _ => 0) = 0 from by with_unfolding_all rfl]
    norm_num
  · rw [show maxSum ["a", "b"] (fun _ => 1) = 2 from by with_unfolding_all rfl]
    norm_num

/-- For every moisture in `[0, 100]` for which the deterministic solver
returns a result, the rounded six-way total
`moisture + fat + air + ash + protein + gum` is within 0.01 of 100.00. -/
theorem det_sixway_total (m g p a ai f : ℚ) (h0 : 0 ≤ m) (h100 : m ≤ 100)
    (h : calculate_components_deterministic m = .ok (g, p, a, ai, f)) :
    |roundQ 2 (m + f + ai + a + p + g) - 100| ≤ 1/100 := by
  unfold calculate_components_deterministic at h
  split at h
  next hin => exact detMid_total m h
  next hin =>
    obtain ⟨g0, hmem, hg0⟩ := tryEndpoints_ok h
    have hgumP : isPrec 2 g0 := by
      simp only [gumTryList, List.mem_cons, List.mem_singleton, List.not_mem_nil,
        or_false] at hmem
      rcases hmem with rfl | rfl
      · rw [oMins_gum]
        exact ⟨8010, by norm_num⟩
      · rw [oMaxs_gum]
        exact ⟨8995, by norm_num⟩
    have hrem : |roundQ 4 (100 - m) - (100 - m)| ≤ 1/20000 := by
      have h4 := abs_roundQ_sub_le 4 (100 - m)
      norm_num at h4 ⊢
      linarith
    exact detEndpoint_total hrem (isPrec_roundQ 4 _) hgumP hg0

theorem det_sixway_total_witness :
    |roundQ 2 ((10:ℚ) + 0.50 + 3.00 + 0.50 + 2.50 + 83.50) - 100| ≤ 1/100 :=
  det_sixway_total 10 83.50 2.50 0.50 3.00 0.50 (by norm_num) (by norm_num)
    (by with_unfolding_all rfl)

/-- C5: at moisture 0 the deterministic solver fails: `gum_needed = 93.5`
is above gum's upper bound, and each endpoint trial leaves the other four
components a target (19.9 resp. 10.05) above their combined maximum 6.75,
so both allocator calls fail the feasibility gate and the solver raises
`ComponentsUnreachable`. -/
theorem det_moisture_zero_unreachable :
    calculate_components_deterministic 0 = .error .componentsUnreachable ∧
    gumNeeded 0 = 93.5 ∧
    maxSum others oMaxs = 6.75 ∧
    roundQ 4 (roundQ 4 (100 - 0) - oMins "gum") = 19.9 ∧
    roundQ 4 (roundQ 4 (100 - 0) - oMaxs "gum") = 10.05 ∧
    detEndpointResult 0 (roundQ 4 (100 - 0)) (oMins "gum") = .error .infeasibleTarget ∧
    detEndpointResult 0 (roundQ 4 (100 - 0)) (oMaxs "gum") = .error .infeasibleTarget :=
  ⟨by with_unfolding_all rfl, by with_unfolding_all rfl, by with_unfolding_all rfl,
   by with_unfolding_all rfl, by with_unfolding_all rfl, by with_unfolding_all rfl,
   by with_unfolding_all rfl⟩

/-- C6: the deterministic solver returns the midpoint split with
`gum = 83.50` at moisture 10 and `gum = 88.50` at moisture 5, both with
rounded six-way total exactly 100.00. -/
theorem det_endpoint_scenarios :
    calculate_components_deterministic 10 = .ok (83.50, 2.50, 0.50, 3.00, 0.50) ∧
    roundQ 2 ((10:ℚ) + 0.50 + 3.00 + 0.50 + 2.50 + 83.50) = 100 ∧
    calculate_components_deterministic 5 = .ok (88.50, 2.50, 0.50, 3.00, 0.50) ∧
    roundQ 2 ((5:ℚ) + 0.50 + 3.00 + 0.50 + 2.50 + 88.50) = 100 :=
  ⟨by with_unfolding_all rfl, by with_unfolding_all rfl,
   by with_unfolding_all rfl, by with_unfolding_all rfl⟩

/-- C7 (amended): when `gum_needed` falls outside gum's bounds the
deterministic solver tries the two bound endpoints in the fixed order
lower-then-upper (regardless of which endpoint is nearer to `gum_needed`)
and accepts the first endpoint for which the allocator succeeds. -/
theorem endpoint_trial_order (m : ℚ)
    (hout : ¬(oMins "gum" - eps9 ≤ gumNeeded m ∧ gumNeeded m ≤ oMaxs "gum" + eps9)) :
    (∀ r, detEndpointResult m (roundQ 4 (100 - m)) (oMins "gum") = .ok r →
      calculate_components_deterministic m = .ok r) ∧
    (∀ e r, detEndpointResult m (roundQ 4 (100 - m)) (oMins "gum") = .error e →
      detEndpointResult m (roundQ 4 (100 - m)) (oMaxs "gum") = .ok r →
      calculate_components_deterministic m = .ok r) ∧
    (∀ e e', detEndpointResult m (roundQ 4 (100 - m)) (oMins "gum") = .error e →
      detEndpointResult m (roundQ 4 (100 - m)) (oMaxs "gum") = .error e' →
      calculate_components_deterministic m = .error .componentsUnreachable) := by
  unfold calculate_components_deterministic
  rw [if_neg hout]
  refine ⟨?_, ?_, ?_⟩
  · intro r hr
    simp only [gumTryList, tryEndpoints, hr]
  · intro e r he hr
    simp only [gumTryList, tryEndpoints, he, hr]
  · intro e e' he he'
    simp only [gumTryList, tryEndpoints, he, he']

theorem endpoint_trial_order_witness :
    calculate_components_deterministic 13.5 = .ok (80.10, 2.46, 0.49, 2.95, 0.50) := by
  have hout : ¬(oMins "gum" - eps9 ≤ gumNeeded 13.5 ∧ gumNeeded 13.5 ≤ oMaxs "gum" + eps9) := by
    rw [show gumNeeded 13.5 = 80 from by with_unfolding_all rfl, oMins_gum, eps9]
    rintro ⟨hc, _⟩
    norm_num at hc
  exact (endpoint_trial_order 13.5 hout).1 _ (by with_unfolding_all rfl)

/-- C7 counterexample: at moisture 3 `gum_needed = 90.5` is out of bounds
and strictly nearer to the upper endpoint 89.95, yet the solver's trial
list is the fixed `[80.10, 89.95]`, so the endpoint tried first is the
lower one, not the nearer one as claimed. -/
theorem endpoint_order_counterexample :
    ¬(oMins "gum" - eps9 ≤ gumNeeded 3 ∧ gumNeeded 3 ≤ oMaxs "gum" + eps9) ∧
    gumTryList = [oMins "gum", oMaxs "gum"] ∧
    gumTryList.head? = some (oMins "gum") ∧
    |oMaxs "gum" - gumNeeded 3| < |oMins "gum" - gumNeeded 3| := by
  refine ⟨?_, rfl, rfl, ?_⟩
  · rw [show gumNeeded 3 = 90.5 from by with_unfolding_all rfl, oMins_gum, oMaxs_gum, eps9]
    rintro ⟨_, hb⟩
    norm_num at hb
  · rw [show gumNeeded 3 = 90.5 from by with_unfolding_all rfl, oMins_gum, oMaxs_gum]
    rw [abs_of_nonpos (by norm_num), abs_of_nonpos (by norm_num)]
    norm_num

/-- C8 (amended): the solvers perform no moisture validation at all.  For
every moisture outside `[0, 100]` the deterministic solver still attempts
both endpoint allocations and then fails with the generic
`ComponentsUnreachable` error (not an `InvalidMoisture` one), and the
randomized solver exhausts its whole attempt budget and fails with
`RandomAllocationFailed`. -/
theorem outside_moisture_behavior (m : ℚ) (hm : m < 0 ∨ 100 < m) :
    calculate_components_deterministic m = .error .componentsUnreachable ∧
    ∀ u : ℕ → ℚ, (∀ i, 0 ≤ u i ∧ u i ≤ 1) →
      calculate_components_random m u = .error .randomFailed :=
  ⟨det_outside_moisture hm, fun u hu => random_outside_fails hm u hu⟩

theorem outside_moisture_behavior_witness :
    calculate_components_deterministic 101 = .error .componentsUnreachable ∧
    calculate_components_random 101 (fun _ => 0) = .error .randomFailed := by
  have h := outside_moisture_behavior 101 (Or.inr (by norm_num))
  exact ⟨h.1, h.2 (fun _ => 0) (fun i => by norm_num)⟩

/-- C8 counterexample: at moisture 101 (outside `[0, 100]`) the
deterministic solver does not fail immediately with an `InvalidMoisture`
error: it runs both endpoint allocation attempts (each failing the
allocator's feasibility gate) and then raises the generic
`ComponentsUnreachable` error. -/
theorem no_invalid_moisture_counterexample :
    calculate_components_deterministic 101 = .error .componentsUnreachable ∧
    detEndpointResult 101 (roundQ 4 (100 - 101)) (oMins "gum") = .error .infeasibleTarget ∧
    detEndpointResult 101 (roundQ 4 (100 - 101)) (oMaxs "gum") = .error .infeasibleTarget :=
  ⟨by with_unfolding_all rfl, by with_unfolding_all rfl, by with_unfolding_all rfl⟩

/-- C9: the allocator's clamp-and-redistribute loop executes at most its
fixed bound of `allocatorMaxPasses = 100 ≥ 50` passes and the randomized
solver executes at most `randomMaxAttempts = 2000` attempts, on every
input; these bounded loops are the only iteration in the embedded core, so
every call terminates. -/
theorem iteration_bounds :
    (∀ (target : ℚ) (names : List String) (mins maxs weights : String → ℚ)
        (vals : Dict) (locked : String → Bool),
      (waterLoop target names mins maxs weights allocatorMaxPasses vals locked).2
        ≤ allocatorMaxPasses) ∧
    50 ≤ allocatorMaxPasses ∧
    (∀ (m remaining : ℚ) (u : ℕ → ℚ) (k : ℕ),
      (randLoop m remaining u k randomMaxAttempts).2 ≤ randomMaxAttempts) ∧
    randomMaxAttempts = 2000 := by
  refine ⟨?_, ?_, ?_, rfl⟩
  · intro target names mins maxs weights vals locked
    exact waterLoop_passes_le target names mins maxs weights allocatorMaxPasses vals locked
  · norm_num [allocatorMaxPasses]
  · intro m remaining u k
    exact randLoop_attempts_le m remaining u randomMaxAttempts k

/-- C10: for every successful call of `distribute_within_bounds` the
returned mapping's key list is duplicate-free and its key set is exactly
the set of names passed in, regardless of clamping and locking during
redistribution. -/
theorem alloc_keys_exact (target : ℚ) (names : List String)
    (mins maxs weights : String → ℚ) (vals : Dict)
    (h : distribute_within_bounds target names mins maxs weights = .ok vals) :
    (keysOf vals).Nodup ∧ ∀ k, k ∈ keysOf vals ↔ k ∈ names := by
  obtain ⟨_, _, rfl⟩ := distribute_ok_iff.mp h
  exact allocCore_keysGood target names mins maxs weights

theorem alloc_keys_exact_witness :
    (keysOf [("fat", (0.5:ℚ)), ("air", 3), ("ash", 0.5), ("protein", 2.5)]).Nodup ∧
    ("fat" ∈ keysOf [("fat", (0.5:ℚ)), ("air", 3), ("ash", 0.5), ("protein", 2.5)] ↔
      "fat" ∈ others) := by
  have h := alloc_keys_exact 6.5 others oMins oMaxs MIDS
    [("fat", 0.5), ("air", 3), ("ash", 0.5), ("protein", 2.5)] (by with_unfolding_all rfl)
  exact ⟨h.1, h.2 "fat"⟩

end COA
